import Mathlib

/-!
# Verification of the annotated-string chunk codec and annotated-value protocol

This development embeds the redaction-chunking subsystem (`split_chunks` /
`join_chunks` from `src/processor/chunks.rs`) and the parts of the
annotated-value protocol exercised by the `Exception` and `User` records.

Rust strings are modelled as `List Char`; byte offsets are computed from the
UTF-8 encoded width of each character, and `str::get(a..b)` is modelled by
`strGet`, which returns `none` exactly when the requested range is reversed,
out of bounds, or does not fall on character boundaries.
-/

/-- The number of bytes of the UTF-8 encoding of a character. -/
def utf8Len (c : Char) : Nat :=
  if c.toNat < 0x80 then 1
  else if c.toNat < 0x800 then 2
  else if c.toNat < 0x10000 then 3
  else 4

/-- The byte length of a string (Rust `str::len`). -/
def byteLen (s : List Char) : Nat :=
  (s.map utf8Len).sum

/-- Drop the first `n` bytes of a string; `none` when `n` is not a character
boundary of the string (Rust's boundary check on the start of a slice). -/
def dropBytes : List Char → Nat → Option (List Char)
  | s, 0 => some s
  | [], _ + 1 => none
  | c :: rest, n + 1 =>
    if n + 1 < utf8Len c then none
    else dropBytes rest (n + 1 - utf8Len c)

/-- Take the first `n` bytes of a string; `none` when `n` is not a character
boundary of the string (Rust's boundary check on the end of a slice). -/
def takeBytes : List Char → Nat → Option (List Char)
  | _, 0 => some []
  | [], _ + 1 => none
  | c :: rest, n + 1 =>
    if n + 1 < utf8Len c then none
    else (takeBytes rest (n + 1 - utf8Len c)).map (fun p => c :: p)

/-- Model of Rust `text.get(a..b)` on a `str`: the slice between byte offsets
`a` and `b`, or `none` when the range is reversed, out of bounds, or not on
character boundaries. -/
def strGet (s : List Char) (a b : Nat) : Option (List Char) :=
  if a ≤ b then (dropBytes s a).bind (fun t => takeBytes t (b - a)) else none

/-- Modelled from the spec: the closed set of redaction kinds (`RemarkType` in
the missing `types` module; `chunks.rs` only consumes it as opaque data). -/
inductive RemarkType where
  | Removed
  | Substituted
  | Masked
  | Pseudonymized
  | Deleted
deriving DecidableEq, Repr

/-- Modelled from the spec: a `Remark` records one redaction event — a kind,
a rule identifier and an optional byte range (`types` module, not in `src/`;
`chunks.rs` consumes it through `ty()`, `rule_id()` and `range()`). -/
structure Remark where
  ty : RemarkType
  rule_id : String
  range : Option (Nat × Nat)
deriving DecidableEq, Repr

/-- Constructor `Remark::with_range(ty, rule_id, range)`. -/
def Remark.with_range (ty : RemarkType) (rule_id : String) (range : Nat × Nat) : Remark :=
  ⟨ty, rule_id, some range⟩

/-- Type `Chunk` from `chunks.rs`: plain text or a redacted span with its rule id
and remark kind. Text is a `List Char` like the model of strings. -/
inductive Chunk where
  | Text (text : List Char)
  | Redaction (text : List Char) (rule_id : String) (ty : RemarkType)
deriving DecidableEq, Repr

/-- Accessor `Chunk::as_str`: the text of a chunk regardless of variant. -/
def Chunk.as_str : Chunk → List Char
  | Chunk.Text t => t
  | Chunk.Redaction t _ _ => t

/-- Accessor `Chunk::len`: byte length of the chunk text. -/
def Chunk.len (c : Chunk) : Nat :=
  byteLen c.as_str

/-- Predicate `Chunk::is_empty`. -/
def Chunk.is_empty (c : Chunk) : Bool :=
  c.len == 0

/-- Whether a chunk is a `Text` chunk. -/
def Chunk.isText : Chunk → Bool
  | Chunk.Text _ => true
  | Chunk.Redaction _ _ _ => false

/-- The trailing step of `split_chunks` (`chunks.rs` lines 117–123): after the
remark loop — also after a `break` — a final `Text` chunk for `text[pos..]` is
pushed whenever `pos < text.len()` and the slice is valid. -/
def split_tail (text : List Char) (pos : Nat) : List Chunk :=
  if pos < byteLen text then
    match strGet text pos (byteLen text) with
    | some piece => [Chunk.Text piece]
    | none => []
  else []

/-- The remark loop of `split_chunks` (`chunks.rs` lines 90–115), written as a
recursion over the remark list with the cursor `pos` as an argument. A `break`
in the Rust loop corresponds to continuing directly with `split_tail`, which is
the code that runs after the loop. -/
def split_loop (text : List Char) : List Remark → Nat → List Chunk
  | [], pos => split_tail text pos
  | r :: rest, pos =>
    match r.range with
    | none => split_loop text rest pos
    | some (f, t) =>
      if f > pos then
        match strGet text pos f with
        | some piece =>
          Chunk.Text piece ::
            (match strGet text f t with
             | some red => Chunk.Redaction red r.rule_id r.ty :: split_loop text rest t
             | none => split_tail text pos)
        | none => split_tail text pos
      else
        match strGet text f t with
        | some red => Chunk.Redaction red r.rule_id r.ty :: split_loop text rest t
        | none => split_tail text pos

/-- Function `split_chunks` from `chunks.rs`: chunk the text according to the remarks,
starting with the cursor at 0. -/
def split_chunks (text : List Char) (remarks : List Remark) : List Chunk :=
  split_loop text remarks 0

/-- The loop of `join_chunks` (`chunks.rs` lines 137–151), written as a
recursion over the chunk list with the byte cursor `pos` as an argument; the
Rust accumulators `rv` and `remarks` become the components of the result. -/
def join_loop : List Chunk → Nat → List Char × List Remark
  | [], _ => ([], [])
  | c :: rest, pos =>
    let new_pos := pos + c.len
    let res := join_loop rest new_pos
    match c with
    | Chunk.Text t => (t ++ res.1, res.2)
    | Chunk.Redaction t rule_id ty =>
      (t ++ res.1, Remark.with_range ty rule_id (pos, new_pos) :: res.2)

/-- Function `join_chunks` from `chunks.rs`: concatenate the chunks and emit one remark
per redaction chunk, with the cursor starting at 0. -/
def join_chunks (chunks : List Chunk) : List Char × List Remark :=
  join_loop chunks 0

/-- In-order concatenation of the texts of a chunk sequence. -/
def flattenTexts (chunks : List Chunk) : List Char :=
  (chunks.map Chunk.as_str).flatten

/-- An ordered, non-overlapping, in-bounds remark sequence relative to a cursor
position: every remark has a range `(f, t)` with `pos ≤ f ≤ t`, both the gap
slice `[pos, f)` and the redaction slice `[f, t)` are valid slices of `s`, and
the rest of the sequence is well formed from cursor `t`. -/
def wellFormed (s : List Char) : List Remark → Nat → Bool
  | [], _ => true
  | r :: rest, pos =>
    match r.range with
    | none => false
    | some (f, t) =>
      decide (pos ≤ f) && decide (f ≤ t) &&
        (strGet s pos f).isSome && (strGet s f t).isSome &&
        wellFormed s rest t

/-- Follows the spec's words for the join contract: one remark per `Redaction`
chunk, whose range is the pair of cursor positions around the chunk, carrying
the chunk's rule id and kind; `Text` chunks emit no remark. -/
def join_remarks_spec : List Chunk → Nat → List Remark
  | [], _ => []
  | Chunk.Text t :: rest, pos => join_remarks_spec rest (pos + byteLen t)
  | Chunk.Redaction t rule_id ty :: rest, pos =>
    ⟨ty, rule_id, some (pos, pos + byteLen t)⟩ :: join_remarks_spec rest (pos + byteLen t)

/-- Remark order used to state that output remarks ascend by range. -/
def remarkLE (x y : Remark) : Bool :=
  match x.range, y.range with
  | some (a, b), some (c, d) => decide (a ≤ c) && decide (b ≤ d)
  | _, _ => false

/-- Chunks are pairwise adjacent over `s` from byte offset `pos`: each chunk's
text is exactly the slice of `s` at the cursor, and the cursor after the last
chunk is the end of `s` (no gaps, no overlaps). -/
def adjacentFrom (s : List Char) : List Chunk → Nat → Bool
  | [], pos => pos == byteLen s
  | c :: rest, pos =>
    (strGet s pos (pos + c.len) == some c.as_str) && adjacentFrom s rest (pos + c.len)

/-! ## The annotated-value protocol

The `types` module (`Annotated`, `Meta`, JSON conversion) and the derive
machinery are not part of the sources; they are modelled from the spec and
from the expectations recorded in the in-source tests of
`src/protocol/exception.rs` and `src/protocol/user.rs`. -/

/-- Modelled from the spec: the JSON value tree exchanged with the
out-of-scope wire parser/printer collaborator (`Value` in the missing `types`
module). -/
inductive JsonValue where
  | null
  | boolean (b : Bool)
  | integer (n : Int)
  | str (s : String)
  | arr (items : List JsonValue)
  | obj (fields : List (String × JsonValue))

/-- Modelled from the spec: per-field metadata — ordered validation errors,
ordered remarks, and the original length before truncation (`Meta` in the
missing `types` module). -/
structure Meta where
  errors : List String
  remarks : List Remark
  original_length : Option Nat

/-- A `Meta` with no errors, no remarks and no original length. -/
def Meta.empty : Meta :=
  ⟨[], [], none⟩

/-- Query `Meta::has_errors`: whether this field's own metadata records any
validation error. Per the error-scoping scenario this inspects only the
receiver, not any child field's metadata. -/
def Meta.has_errors (m : Meta) : Bool :=
  !m.errors.isEmpty

/-- Modelled from the spec: the generic container pairing an optional value
with its `Meta` (`Annotated<T>` in the missing `types` module). -/
structure Annotated (α : Type) where
  value : Option α
  meta : Meta

/-- Constructor `Annotated::new`: a present value with empty metadata. -/
def Annotated.new (v : α) : Annotated α :=
  ⟨some v, Meta.empty⟩

/-- Constructor `Annotated::empty`: an absent value with empty metadata. -/
def Annotated.empty : Annotated α :=
  ⟨none, Meta.empty⟩

/-- Constructor `Annotated::from_error`: an optional value whose metadata records one
error. -/
def Annotated.from_error (msg : String) (v : Option α) : Annotated α :=
  ⟨v, ⟨[msg], [], none⟩⟩

/-- Look up a key in a JSON object's field list. -/
def lookupField (fields : List (String × JsonValue)) (k : String) : Option JsonValue :=
  (fields.find? (fun kv => kv.1 == k)).map (fun kv => kv.2)

/-- Modelled from the spec: parsing an optional string field — absent (or
null) gives an absent value with no error, a string is taken verbatim, any
other value records an error. -/
def parseStr : Option JsonValue → Annotated String
  | none => Annotated.empty
  | some JsonValue.null => Annotated.empty
  | some (JsonValue.str s) => Annotated.new s
  | some _ => Annotated.from_error "expected a string" none

/-- Modelled from the spec: parsing a required string field — a missing (or
null) value records a "value required" error in this field's own `Meta`. -/
def parseRequiredStr : Option JsonValue → Annotated String
  | none => Annotated.from_error "value required" none
  | some JsonValue.null => Annotated.from_error "value required" none
  | some (JsonValue.str s) => Annotated.new s
  | some _ => Annotated.from_error "expected a string" none

/-- Modelled from the spec: parsing an out-of-scope structured field
(`Stacktrace`, `Mechanism`, `ThreadId`); the raw JSON value is retained, which
is all the claims under verification observe. -/
def parseRaw : Option JsonValue → Annotated JsonValue
  | none => Annotated.empty
  | some JsonValue.null => Annotated.empty
  | some v => Annotated.new v

/-- Modelled from the spec: unknown keys are captured verbatim into the
catch-all mapping rather than rejected. -/
def captureOther (fields : List (String × JsonValue)) (known : List String) :
    List (String × Annotated JsonValue) :=
  (fields.filter (fun kv => !known.contains kv.1)).map (fun kv => (kv.1, Annotated.new kv.2))

/-- Record `Exception` from `src/protocol/exception.rs`: `type` is the only required
field; `stacktrace` has the legacy alias `sentry.interfaces.Stacktrace`;
unknown keys land in `other`. -/
structure Exception where
  ty : Annotated String
  value : Annotated String
  module : Annotated String
  stacktrace : Annotated JsonValue
  raw_stacktrace : Annotated JsonValue
  thread_id : Annotated JsonValue
  mechanism : Annotated JsonValue
  other : List (String × Annotated JsonValue)

/-- The wire keys consumed by the known fields of `Exception`. -/
def exceptionKnownKeys : List String :=
  ["type", "value", "module", "stacktrace", "sentry.interfaces.Stacktrace",
   "raw_stacktrace", "thread_id", "mechanism"]

/-- Modelled from the spec: `Annotated::<Exception>::from_value` — each known
field is read by key (the required `type` field records "value required" when
missing; the alias is tried when the canonical `stacktrace` key is absent),
and unknown keys are captured into `other`. -/
def exceptionFromValue : JsonValue → Annotated Exception
  | JsonValue.obj fields =>
    Annotated.new
      { ty := parseRequiredStr (lookupField fields "type")
        value := parseStr (lookupField fields "value")
        module := parseStr (lookupField fields "module")
        stacktrace :=
          parseRaw
            (match lookupField fields "stacktrace" with
             | some v => some v
             | none => lookupField fields "sentry.interfaces.Stacktrace")
        raw_stacktrace := parseRaw (lookupField fields "raw_stacktrace")
        thread_id := parseRaw (lookupField fields "thread_id")
        mechanism := parseRaw (lookupField fields "mechanism")
        other := captureOther fields exceptionKnownKeys }
  | JsonValue.null => Annotated.empty
  | _ => Annotated.from_error "expected an exception" none

/-- Record `Geo` from `src/protocol/user.rs`: three optional string fields plus the
catch-all mapping. -/
structure Geo where
  country_code : Annotated String
  city : Annotated String
  region : Annotated String
  other : List (String × Annotated JsonValue)

/-- The wire keys consumed by the known fields of `Geo`. -/
def geoKnownKeys : List String :=
  ["country_code", "city", "region"]

/-- Modelled from the spec: `Annotated::<Geo>::from_value`. -/
def geoFromValue : JsonValue → Annotated Geo
  | JsonValue.obj fields =>
    Annotated.new
      { country_code := parseStr (lookupField fields "country_code")
        city := parseStr (lookupField fields "city")
        region := parseStr (lookupField fields "region")
        other := captureOther fields geoKnownKeys }
  | JsonValue.null => Annotated.empty
  | _ => Annotated.from_error "expected a geo" none

/-- Record `User` from `src/protocol/user.rs`: optional string-like fields (the
lenient `id` string and the `ip_address` wrapper are modelled as strings, the
only shape the claims exercise), an optional `geo` record, and the catch-all
mapping. -/
structure User where
  id : Annotated String
  email : Annotated String
  ip_address : Annotated String
  username : Annotated String
  name : Annotated String
  geo : Annotated Geo
  other : List (String × Annotated JsonValue)

/-- The wire keys consumed by the known fields of `User`. -/
def userKnownKeys : List String :=
  ["id", "email", "ip_address", "username", "name", "geo"]

/-- Modelled from the spec: `Annotated::<User>::from_value`. -/
def userFromValue : JsonValue → Annotated User
  | JsonValue.obj fields =>
    Annotated.new
      { id := parseStr (lookupField fields "id")
        email := parseStr (lookupField fields "email")
        ip_address := parseStr (lookupField fields "ip_address")
        username := parseStr (lookupField fields "username")
        name := parseStr (lookupField fields "name")
        geo :=
          match lookupField fields "geo" with
          | none => Annotated.empty
          | some JsonValue.null => Annotated.empty
          | some v => geoFromValue v
        other := captureOther fields userKnownKeys }
  | JsonValue.null => Annotated.empty
  | _ => Annotated.from_error "expected a user" none

/-- Modelled from the spec: serializing an optional string field — omitted
when absent with no error, `null` when absent with an error. -/
def strFieldOut (k : String) (a : Annotated String) : List (String × JsonValue) :=
  match a.value with
  | some s => [(k, JsonValue.str s)]
  | none => if a.meta.has_errors then [(k, JsonValue.null)] else []

/-- Modelled from the spec: serializing the catch-all mapping — entries are
reproduced under their original keys; absent entries are omitted. -/
def otherOut (l : List (String × Annotated JsonValue)) : List (String × JsonValue) :=
  l.filterMap (fun kv => kv.2.value.map (fun v => (kv.1, v)))

/-- Modelled from the spec: `Geo::to_value` — known fields in schema
declaration order, then the catch-all entries. -/
def geoToValue (g : Geo) : JsonValue :=
  JsonValue.obj
    (strFieldOut "country_code" g.country_code ++ strFieldOut "city" g.city ++
      strFieldOut "region" g.region ++ otherOut g.other)

/-- Modelled from the spec: serializing the optional `geo` record field. -/
def geoFieldOut (k : String) (a : Annotated Geo) : List (String × JsonValue) :=
  match a.value with
  | some g => [(k, geoToValue g)]
  | none => if a.meta.has_errors then [(k, JsonValue.null)] else []

/-- Modelled from the spec: `User::to_value` — known fields in schema
declaration order (the canonical keys), then the catch-all entries. -/
def userToValue (u : User) : JsonValue :=
  JsonValue.obj
    (strFieldOut "id" u.id ++ strFieldOut "email" u.email ++
      strFieldOut "ip_address" u.ip_address ++ strFieldOut "username" u.username ++
      strFieldOut "name" u.name ++ geoFieldOut "geo" u.geo ++ otherOut u.other)

/-- A run of `n` spaces, for pretty-printed indentation. -/
def spaces (n : Nat) : String :=
  String.mk (List.replicate n ' ')

/-- JSON escaping of one character (the claims only exercise characters that
escape to themselves). -/
def escapeChar (c : Char) : String :=
  if c = '"' then "\\\""
  else if c = '\\' then "\\\\"
  else if c = '\n' then "\\n"
  else String.singleton c

/-- JSON escaping of a string. -/
def escapeString (s : String) : String :=
  String.join (s.data.map escapeChar)

mutual

/-- Modelled from the spec: the pretty printer of the out-of-scope wire
collaborator — 2-space indentation, keys in the order produced by
serialization, matching `to_json_pretty` byte for byte. -/
def renderValue : JsonValue → Nat → String
  | JsonValue.null, _ => "null"
  | JsonValue.boolean true, _ => "true"
  | JsonValue.boolean false, _ => "false"
  | JsonValue.integer n, _ => toString n
  | JsonValue.str s, _ => "\"" ++ escapeString s ++ "\""
  | JsonValue.arr items, ind =>
    match items with
    | [] => "[]"
    | _ => "[\n" ++ renderItems items (ind + 2) ++ "\n" ++ spaces ind ++ "]"
  | JsonValue.obj fields, ind =>
    match fields with
    | [] => "\x7b\x7d"
    | _ => "\x7b\n" ++ renderFields fields (ind + 2) ++ "\n" ++ spaces ind ++ "\x7d"

/-- Pretty-printed array items, one per line, comma separated. -/
def renderItems : List JsonValue → Nat → String
  | [], _ => ""
  | [v], ind => spaces ind ++ renderValue v ind
  | v :: rest, ind => spaces ind ++ renderValue v ind ++ ",\n" ++ renderItems rest ind

/-- Pretty-printed object fields, one per line, comma separated. -/
def renderFields : List (String × JsonValue) → Nat → String
  | [], _ => ""
  | [(k, v)], ind => spaces ind ++ "\"" ++ escapeString k ++ "\": " ++ renderValue v ind
  | (k, v) :: rest, ind =>
    spaces ind ++ "\"" ++ escapeString k ++ "\": " ++ renderValue v ind ++ ",\n" ++
      renderFields rest ind

end

/-- Method `Annotated::<User>::to_json_pretty`: render the serialized value (`null`
for an absent root). -/
def user_to_json_pretty (a : Annotated User) : String :=
  match a.value with
  | some u => renderValue (userToValue u) 0
  | none => "null"

/-- The literal pretty-printed JSON of the `test_user_roundtrip` test. -/
def userJsonText : String :=
  "\x7b\n  \"id\": \"e4e24881-8238-4539-a32b-d3c3ecd40568\",\n  \"email\": \"mail@example.org\",\n  \"ip_address\": \"\x7b\x7bauto\x7d\x7d\",\n  \"username\": \"john_doe\",\n  \"name\": \"John Doe\",\n  \"other\": \"value\"\n\x7d"

/-- The JSON value tree of that literal text, as produced by the out-of-scope
wire parser. -/
def userJsonValue : JsonValue :=
  JsonValue.obj
    [("id", JsonValue.str "e4e24881-8238-4539-a32b-d3c3ecd40568"),
     ("email", JsonValue.str "mail@example.org"),
     ("ip_address", JsonValue.str "\x7b\x7bauto\x7d\x7d"),
     ("username", JsonValue.str "john_doe"),
     ("name", JsonValue.str "John Doe"),
     ("other", JsonValue.str "value")]

/-- The typed record the `test_user_roundtrip` test expects. -/
def expectedUser : User :=
  { id := Annotated.new "e4e24881-8238-4539-a32b-d3c3ecd40568"
    email := Annotated.new "mail@example.org"
    ip_address := Annotated.new "\x7b\x7bauto\x7d\x7d"
    username := Annotated.new "john_doe"
    name := Annotated.new "John Doe"
    geo := Annotated.empty
    other := [("other", Annotated.new (JsonValue.str "value"))] }

/-- The text and remark of the `test_chunk_split` test. -/
def emailText : String :=
  "Hello Peter, my email address is ****@*****.com. See you"

/-- The single remark of the `test_chunk_split` test. -/
def emailRemark : Remark :=
  Remark.with_range RemarkType.Masked "@email:strip" (33, 47)

/-- The chunk sequence the `test_chunk_split` test expects. -/
def emailChunks : List Chunk :=
  [Chunk.Text "Hello Peter, my email address is ".data,
   Chunk.Redaction "****@*****.com".data "@email:strip" RemarkType.Masked,
   Chunk.Text ". See you".data]

/-! ## Byte-length and slice lemmas -/

theorem utf8Len_pos (c : Char) : 0 < utf8Len c := by
  unfold utf8Len
  split
  · omega
  · split
    · omega
    · split <;> omega

@[simp]
theorem byteLen_nil : byteLen [] = 0 := rfl

@[simp]
theorem byteLen_cons (c : Char) (s : List Char) :
    byteLen (c :: s) = utf8Len c + byteLen s := by
  simp [byteLen]

@[simp]
theorem byteLen_append (a b : List Char) :
    byteLen (a ++ b) = byteLen a + byteLen b := by
  simp [byteLen]

theorem byteLen_eq_zero {s : List Char} (h : byteLen s = 0) : s = [] := by
  cases s with
  | nil => rfl
  | cons c rest =>
    have := utf8Len_pos c
    simp at h
    omega

theorem dropBytes_cons (c : Char) (rest : List Char) {n : Nat} (hn : 0 < n) :
    dropBytes (c :: rest) n =
      if n < utf8Len c then none else dropBytes rest (n - utf8Len c) := by
  obtain ⟨k, rfl⟩ : ∃ k, n = k + 1 := ⟨n - 1, by omega⟩
  rfl

theorem takeBytes_cons (c : Char) (rest : List Char) {n : Nat} (hn : 0 < n) :
    takeBytes (c :: rest) n =
      if n < utf8Len c then none
      else (takeBytes rest (n - utf8Len c)).map (fun p => c :: p) := by
  obtain ⟨k, rfl⟩ : ∃ k, n = k + 1 := ⟨n - 1, by omega⟩
  rfl

@[simp]
theorem dropBytes_zero (s : List Char) : dropBytes s 0 = some s := by
  cases s <;> rfl

@[simp]
theorem takeBytes_zero (s : List Char) : takeBytes s 0 = some [] := by
  cases s <;> rfl

theorem dropBytes_append (a b : List Char) :
    dropBytes (a ++ b) (byteLen a) = some b := by
  induction a with
  | nil => simp
  | cons c rest ih =>
    have hpos := utf8Len_pos c
    rw [List.cons_append, byteLen_cons,
      dropBytes_cons c (rest ++ b) (by omega)]
    rw [if_neg (by omega)]
    have : utf8Len c + byteLen rest - utf8Len c = byteLen rest := by omega
    rw [this, ih]

theorem takeBytes_append (a b : List Char) :
    takeBytes (a ++ b) (byteLen a) = some a := by
  induction a with
  | nil => simp
  | cons c rest ih =>
    have hpos := utf8Len_pos c
    rw [List.cons_append, byteLen_cons,
      takeBytes_cons c (rest ++ b) (by omega)]
    rw [if_neg (by omega)]
    have : utf8Len c + byteLen rest - utf8Len c = byteLen rest := by omega
    rw [this, ih]
    rfl

theorem takeBytes_self (s : List Char) : takeBytes s (byteLen s) = some s := by
  have := takeBytes_append s []
  simpa using this

theorem dropBytes_some {s t : List Char} {n : Nat} (h : dropBytes s n = some t) :
    ∃ u, s = u ++ t ∧ byteLen u = n := by
  induction s generalizing n with
  | nil =>
    cases n with
    | zero =>
      refine ⟨[], ?_, rfl⟩
      simpa using h.symm
    | succ k => cases h
  | cons c rest ih =>
    cases n with
    | zero =>
      simp at h
      exact ⟨[], by simp [h], rfl⟩
    | succ k =>
      rw [dropBytes_cons c rest (by omega)] at h
      by_cases hlt : k + 1 < utf8Len c
      · rw [if_pos hlt] at h
        cases h
      · rw [if_neg hlt] at h
        obtain ⟨u, hu, hbl⟩ := ih h
        exact ⟨c :: u, by simp [hu], by simp [hbl]; omega⟩

theorem takeBytes_some {s p : List Char} {n : Nat} (h : takeBytes s n = some p) :
    ∃ v, s = p ++ v ∧ byteLen p = n := by
  induction s generalizing n p with
  | nil =>
    cases n with
    | zero =>
      have hp : p = [] := by simpa using h.symm
      subst hp
      exact ⟨[], rfl, rfl⟩
    | succ k => cases h
  | cons c rest ih =>
    cases n with
    | zero =>
      have hp : p = [] := by simpa using h.symm
      subst hp
      exact ⟨c :: rest, rfl, rfl⟩
    | succ k =>
      rw [takeBytes_cons c rest (by omega)] at h
      by_cases hlt : k + 1 < utf8Len c
      · rw [if_pos hlt] at h
        cases h
      · rw [if_neg hlt] at h
        cases hq : takeBytes rest (k + 1 - utf8Len c) with
        | none => rw [hq] at h; cases h
        | some q =>
          rw [hq] at h
          simp at h
          obtain ⟨v, hv, hbl⟩ := ih hq
          refine ⟨v, by simp [← h, hv], ?_⟩
          rw [← h]
          simp [hbl]
          omega

theorem dropBytes_add {s u v : List Char} {a m : Nat}
    (h₁ : dropBytes s a = some u) (h₂ : dropBytes u m = some v) :
    dropBytes s (a + m) = some v := by
  obtain ⟨x, hx, hxl⟩ := dropBytes_some h₁
  obtain ⟨y, hy, hyl⟩ := dropBytes_some h₂
  have : s = (x ++ y) ++ v := by simp [hx, hy]
  rw [this, ← show byteLen (x ++ y) = a + m by simp [hxl, hyl]]
  exact dropBytes_append (x ++ y) v

theorem strGet_byteLen {s p : List Char} {a b : Nat} (h : strGet s a b = some p) :
    a ≤ b ∧ byteLen p = b - a := by
  unfold strGet at h
  split at h
  case isTrue hab =>
    cases hdb : dropBytes s a with
    | none => rw [hdb] at h; cases h
    | some t =>
      rw [hdb] at h
      simp at h
      obtain ⟨v, _, hbl⟩ := takeBytes_some h
      exact ⟨hab, hbl⟩
  case isFalse => cases h

theorem strGet_step {s tail p : List Char} {a b : Nat}
    (hd : dropBytes s a = some tail) (h : strGet s a b = some p) :
    a ≤ b ∧ byteLen p = b - a ∧
      ∃ tail₂, dropBytes s b = some tail₂ ∧ tail = p ++ tail₂ := by
  unfold strGet at h
  split at h
  case isTrue hab =>
    rw [hd] at h
    simp at h
    obtain ⟨v, hv, hbl⟩ := takeBytes_some h
    refine ⟨hab, hbl, v, ?_, hv⟩
    have hdt : dropBytes tail (b - a) = some v := by
      rw [hv, ← hbl]
      exact dropBytes_append p v
    have := dropBytes_add hd hdt
    rwa [Nat.add_sub_cancel' hab] at this
  case isFalse => cases h

theorem dropBytes_bounds {s t : List Char} {n : Nat} (h : dropBytes s n = some t) :
    n ≤ byteLen s ∧ byteLen t = byteLen s - n := by
  obtain ⟨u, hu, hbl⟩ := dropBytes_some h
  subst hu
  simp [hbl]

theorem strGet_of_drop {s tail : List Char} {pos : Nat}
    (hd : dropBytes s pos = some tail) :
    strGet s pos (byteLen s) = some tail := by
  have hb := dropBytes_bounds hd
  unfold strGet
  rw [if_pos hb.1, hd]
  simp
  rw [← hb.2]
  exact takeBytes_self tail

/-! ## Computation lemmas for `join_loop` -/

theorem join_loop_text (t : List Char) (cs : List Chunk) (pos : Nat) :
    join_loop (Chunk.Text t :: cs) pos =
      (t ++ (join_loop cs (pos + byteLen t)).1, (join_loop cs (pos + byteLen t)).2) := rfl

theorem join_loop_red (t : List Char) (rid : String) (ty : RemarkType)
    (cs : List Chunk) (pos : Nat) :
    join_loop (Chunk.Redaction t rid ty :: cs) pos =
      (t ++ (join_loop cs (pos + byteLen t)).1,
       ⟨ty, rid, some (pos, pos + byteLen t)⟩ :: (join_loop cs (pos + byteLen t)).2) := rfl

/-! ## The round-trip induction -/

theorem join_split_loop (s : List Char) (R : List Remark) :
    ∀ (pos : Nat) (tail : List Char), dropBytes s pos = some tail →
      wellFormed s R pos = true →
      join_loop (split_loop s R pos) pos = (tail, R) := by
  induction R with
  | nil =>
    intro pos tail hd _
    show join_loop (split_tail s pos) pos = (tail, [])
    unfold split_tail
    by_cases hlt : pos < byteLen s
    · rw [if_pos hlt, strGet_of_drop hd, join_loop_text]
      simp [join_loop]
    · have hb := dropBytes_bounds hd
      have htail : tail = [] := byteLen_eq_zero (by omega)
      subst htail
      rw [if_neg hlt]
      rfl
  | cons r rest ih =>
    intro pos tail hd hwf
    obtain ⟨rty, rrid, rrange⟩ := r
    cases rrange with
    | none => simp [wellFormed] at hwf
    | some ft =>
      obtain ⟨f, t⟩ := ft
      have hwf' : (decide (pos ≤ f) && decide (f ≤ t) &&
          (strGet s pos f).isSome && (strGet s f t).isSome &&
          wellFormed s rest t) = true := hwf
      simp only [Bool.and_eq_true, decide_eq_true_eq] at hwf'
      obtain ⟨⟨⟨⟨hpf, hft⟩, hg⟩, hr⟩, hwfr⟩ := hwf'
      obtain ⟨gap, hgap⟩ := Option.isSome_iff_exists.mp hg
      obtain ⟨red, hred⟩ := Option.isSome_iff_exists.mp hr
      obtain ⟨-, hgbl, tail₁, hd₁, htail⟩ := strGet_step hd hgap
      obtain ⟨-, hrbl, tail₂, hd₂, htail₁⟩ := strGet_step hd₁ hred
      have ihr := ih t tail₂ hd₂ hwfr
      simp only [split_loop]
      by_cases hfp : f > pos
      · rw [if_pos hfp]
        simp only [hgap, hred]
        rw [join_loop_text]
        have hf : pos + byteLen gap = f := by omega
        rw [hf, join_loop_red]
        have ht : f + byteLen red = t := by omega
        rw [ht, ihr]
        simp [htail, htail₁]
      · rw [if_neg hfp]
        simp only [hred]
        have hg0 : gap = [] := byteLen_eq_zero (by omega)
        subst hg0
        have hfeq : f = pos := by omega
        subst hfeq
        rw [join_loop_red]
        have ht : f + byteLen red = t := by omega
        rw [ht, ihr]
        simp at htail
        simp [htail, htail₁]

/-! ## Join: concatenation, remark recomputation, ordering -/

theorem join_loop_eq (cs : List Chunk) :
    ∀ pos, join_loop cs pos = (flattenTexts cs, join_remarks_spec cs pos) := by
  induction cs with
  | nil => intro pos; rfl
  | cons c rest ih =>
    intro pos
    cases c with
    | Text t =>
      rw [join_loop_text, ih]
      simp [flattenTexts, join_remarks_spec, Chunk.as_str]
    | Redaction t rid ty =>
      rw [join_loop_red, ih]
      simp [flattenTexts, join_remarks_spec, Chunk.as_str]

theorem join_remarks_spec_length (cs : List Chunk) :
    ∀ pos, (join_remarks_spec cs pos).length =
      (cs.filter (fun c => !c.isText)).length := by
  induction cs with
  | nil => intro pos; rfl
  | cons c rest ih =>
    intro pos
    cases c with
    | Text t => simp [join_remarks_spec, Chunk.isText, ih]
    | Redaction t rid ty => simp [join_remarks_spec, Chunk.isText, ih]

theorem join_remarks_spec_bounds (cs : List Chunk) :
    ∀ pos r, r ∈ join_remarks_spec cs pos →
      ∃ a b, r.range = some (a, b) ∧ pos ≤ a ∧ a ≤ b := by
  induction cs with
  | nil => intro pos r hr; cases hr
  | cons c rest ih =>
    intro pos r hr
    cases c with
    | Text t =>
      obtain ⟨a, b, h₁, h₂, h₃⟩ := ih (pos + byteLen t) r hr
      exact ⟨a, b, h₁, by omega, h₃⟩
    | Redaction t rid ty =>
      rcases List.mem_cons.mp hr with h | h
      · subst h
        exact ⟨pos, pos + byteLen t, rfl, Nat.le_refl pos, by omega⟩
      · obtain ⟨a, b, h₁, h₂, h₃⟩ := ih (pos + byteLen t) r h
        exact ⟨a, b, h₁, by omega, h₃⟩

theorem join_remarks_spec_chain (cs : List Chunk) :
    ∀ pos, List.Chain' (fun x y => remarkLE x y = true) (join_remarks_spec cs pos) := by
  induction cs with
  | nil => intro pos; exact List.chain'_nil
  | cons c rest ih =>
    intro pos
    cases c with
    | Text t => exact ih (pos + byteLen t)
    | Redaction t rid ty =>
      simp only [join_remarks_spec]
      rw [List.chain'_cons']
      refine ⟨?_, ih (pos + byteLen t)⟩
      intro y hy
      have hmem : y ∈ join_remarks_spec rest (pos + byteLen t) :=
        List.mem_of_mem_head? hy
      obtain ⟨a, b, hr, ha, hab⟩ :=
        join_remarks_spec_bounds rest (pos + byteLen t) y hmem
      simp [remarkLE, hr]
      omega

/-! ## Adjacency of chunks over the source string -/

theorem adjacent_of_drop (s : List Char) (cs : List Chunk) :
    ∀ pos, dropBytes s pos = some (flattenTexts cs) →
      adjacentFrom s cs pos = true := by
  induction cs with
  | nil =>
    intro pos hd
    have hb := dropBytes_bounds hd
    simp [flattenTexts] at hb
    simp [adjacentFrom]
    omega
  | cons c rest ih =>
    intro pos hd
    have hflat : flattenTexts (c :: rest) = c.as_str ++ flattenTexts rest := by
      simp [flattenTexts]
    rw [hflat] at hd
    have hb := dropBytes_bounds hd
    have hget : strGet s pos (pos + c.len) = some c.as_str := by
      unfold strGet
      rw [if_pos (by omega), hd]
      simp [Chunk.len]
      exact takeBytes_append c.as_str (flattenTexts rest)
    have hd' : dropBytes s (pos + c.len) = some (flattenTexts rest) := by
      have : dropBytes (c.as_str ++ flattenTexts rest) (byteLen c.as_str) =
          some (flattenTexts rest) := dropBytes_append _ _
      exact dropBytes_add hd this
    simp [adjacentFrom, hget]
    exact ih (pos + c.len) hd'

/-! ## Membership and shape of split output -/

theorem split_tail_mem {text : List Char} {pos : Nat} {c : Chunk}
    (h : c ∈ split_tail text pos) :
    ∃ piece, c = Chunk.Text piece ∧ strGet text pos (byteLen text) = some piece ∧
      pos < byteLen text := by
  unfold split_tail at h
  split at h
  case isTrue hlt =>
    cases hg : strGet text pos (byteLen text) with
    | none => rw [hg] at h; cases h
    | some piece =>
      rw [hg] at h
      simp at h
      exact ⟨piece, h, rfl, hlt⟩
  case isFalse => cases h

theorem split_loop_mem_slice (text : List Char) (R : List Remark) :
    ∀ pos c, c ∈ split_loop text R pos → ∃ a b, strGet text a b = some c.as_str := by
  induction R with
  | nil =>
    intro pos c h
    obtain ⟨piece, hc, hg, -⟩ := split_tail_mem h
    exact ⟨pos, byteLen text, by simp [hc, Chunk.as_str, hg]⟩
  | cons r rest ih =>
    intro pos c h
    obtain ⟨rty, rrid, rrange⟩ := r
    cases rrange with
    | none =>
      simp only [split_loop] at h
      exact ih pos c h
    | some ft =>
      obtain ⟨f, t⟩ := ft
      simp only [split_loop] at h
      by_cases hfp : f > pos
      · rw [if_pos hfp] at h
        cases hgap : strGet text pos f with
        | none =>
          simp only [hgap] at h
          obtain ⟨piece, hc, hg, -⟩ := split_tail_mem h
          exact ⟨pos, byteLen text, by simp [hc, Chunk.as_str, hg]⟩
        | some gap =>
          simp only [hgap] at h
          rcases List.mem_cons.mp h with hc | h₂
          · exact ⟨pos, f, by simp [hc, Chunk.as_str, hgap]⟩
          · cases hred : strGet text f t with
            | none =>
              simp only [hred] at h₂
              obtain ⟨piece, hc, hg, -⟩ := split_tail_mem h₂
              exact ⟨pos, byteLen text, by simp [hc, Chunk.as_str, hg]⟩
            | some red =>
              simp only [hred] at h₂
              rcases List.mem_cons.mp h₂ with hc | h₃
              · exact ⟨f, t, by simp [hc, Chunk.as_str, hred]⟩
              · exact ih t c h₃
      · rw [if_neg hfp] at h
        cases hred : strGet text f t with
        | none =>
          simp only [hred] at h
          obtain ⟨piece, hc, hg, -⟩ := split_tail_mem h
          exact ⟨pos, byteLen text, by simp [hc, Chunk.as_str, hg]⟩
        | some red =>
          simp only [hred] at h
          rcases List.mem_cons.mp h with hc | h₂
          · exact ⟨f, t, by simp [hc, Chunk.as_str, hred]⟩
          · exact ih t c h₂

theorem split_tail_shape {text : List Char} {pos : Nat} {c : Chunk}
    (h : c ∈ split_tail text pos) : c.isText = true ∧ c.is_empty = false := by
  obtain ⟨piece, hc, hg, hlt⟩ := split_tail_mem h
  subst hc
  have hb := strGet_byteLen hg
  refine ⟨rfl, ?_⟩
  simp only [Chunk.is_empty, Chunk.len, Chunk.as_str, beq_eq_false_iff_ne, ne_eq]
  omega

theorem split_loop_text_nonempty (text : List Char) (R : List Remark) :
    ∀ pos c, c ∈ split_loop text R pos → c.isText = true → c.is_empty = false := by
  induction R with
  | nil =>
    intro pos c h _
    exact (split_tail_shape h).2
  | cons r rest ih =>
    intro pos c h hText
    obtain ⟨rty, rrid, rrange⟩ := r
    cases rrange with
    | none =>
      simp only [split_loop] at h
      exact ih pos c h hText
    | some ft =>
      obtain ⟨f, t⟩ := ft
      simp only [split_loop] at h
      by_cases hfp : f > pos
      · rw [if_pos hfp] at h
        cases hgap : strGet text pos f with
        | none =>
          simp only [hgap] at h
          exact (split_tail_shape h).2
        | some gap =>
          simp only [hgap] at h
          rcases List.mem_cons.mp h with hc | h₂
          · subst hc
            have hb := strGet_byteLen hgap
            simp only [Chunk.is_empty, Chunk.len, Chunk.as_str, beq_eq_false_iff_ne, ne_eq]
            omega
          · cases hred : strGet text f t with
            | none =>
              simp only [hred] at h₂
              exact (split_tail_shape h₂).2
            | some red =>
              simp only [hred] at h₂
              rcases List.mem_cons.mp h₂ with hc | h₃
              · subst hc
                cases hText
              · exact ih t c h₃ hText
      · rw [if_neg hfp] at h
        cases hred : strGet text f t with
        | none =>
          simp only [hred] at h
          exact (split_tail_shape h).2
        | some red =>
          simp only [hred] at h
          rcases List.mem_cons.mp h with hc | h₂
          · subst hc
            cases hText
          · exact ih t c h₂ hText

theorem split_loop_nonempty_of_no_empty_range (text : List Char) (R : List Remark) :
    ∀ pos c, (∀ r ∈ R, ∀ f t, r.range = some (f, t) → f ≠ t) →
      c ∈ split_loop text R pos → c.is_empty = false := by
  induction R with
  | nil =>
    intro pos c _ h
    exact (split_tail_shape h).2
  | cons r rest ih =>
    intro pos c hne h
    have hner : ∀ f t, r.range = some (f, t) → f ≠ t :=
      hne r (List.mem_cons_self r rest)
    have hnerest : ∀ r' ∈ rest, ∀ f t, r'.range = some (f, t) → f ≠ t :=
      fun r' hr' => hne r' (List.mem_cons_of_mem r hr')
    obtain ⟨rty, rrid, rrange⟩ := r
    cases rrange with
    | none =>
      simp only [split_loop] at h
      exact ih pos c hnerest h
    | some ft =>
      obtain ⟨f, t⟩ := ft
      have hft : f ≠ t := hner f t rfl
      simp only [split_loop] at h
      by_cases hfp : f > pos
      · rw [if_pos hfp] at h
        cases hgap : strGet text pos f with
        | none =>
          simp only [hgap] at h
          exact (split_tail_shape h).2
        | some gap =>
          simp only [hgap] at h
          rcases List.mem_cons.mp h with hc | h₂
          · subst hc
            have hb := strGet_byteLen hgap
            simp only [Chunk.is_empty, Chunk.len, Chunk.as_str, beq_eq_false_iff_ne, ne_eq]
            omega
          · cases hred : strGet text f t with
            | none =>
              simp only [hred] at h₂
              exact (split_tail_shape h₂).2
            | some red =>
              simp only [hred] at h₂
              rcases List.mem_cons.mp h₂ with hc | h₃
              · subst hc
                have hb := strGet_byteLen hred
                simp only [Chunk.is_empty, Chunk.len, Chunk.as_str, beq_eq_false_iff_ne, ne_eq]
                omega
              · exact ih t c hnerest h₃
      · rw [if_neg hfp] at h
        cases hred : strGet text f t with
        | none =>
          simp only [hred] at h
          exact (split_tail_shape h).2
        | some red =>
          simp only [hred] at h
          rcases List.mem_cons.mp h with hc | h₂
          · subst hc
            have hb := strGet_byteLen hred
            simp only [Chunk.is_empty, Chunk.len, Chunk.as_str, beq_eq_false_iff_ne, ne_eq]
            omega
          · exact ih t c hnerest h₂

/-! ## Rangeless remarks are skipped -/

theorem split_loop_filter (text : List Char) (R : List Remark) :
    ∀ pos, split_loop text R pos =
      split_loop text (R.filter (fun r => r.range.isSome)) pos := by
  induction R with
  | nil => intro pos; rfl
  | cons r rest ih =>
    intro pos
    obtain ⟨rty, rrid, rrange⟩ := r
    cases rrange with
    | none =>
      have hfc : List.filter (fun r => r.range.isSome)
          ((⟨rty, rrid, none⟩ : Remark) :: rest) =
          List.filter (fun r => r.range.isSome) rest := rfl
      rw [hfc]
      simp only [split_loop]
      exact ih pos
    | some ft =>
      obtain ⟨f, t⟩ := ft
      have hfc : List.filter (fun r => r.range.isSome)
          ((⟨rty, rrid, some (f, t)⟩ : Remark) :: rest) =
          (⟨rty, rrid, some (f, t)⟩ : Remark) ::
            List.filter (fun r => r.range.isSome) rest := rfl
      rw [hfc]
      simp only [split_loop]
      by_cases hfp : f > pos
      · rw [if_pos hfp, if_pos hfp]
        cases hgap : strGet text pos f with
        | none => simp only [hgap]
        | some gap =>
          simp only [hgap]
          cases hred : strGet text f t with
          | none => simp only [hred]
          | some red =>
            simp only [hred]
            rw [ih t]
      · rw [if_neg hfp, if_neg hfp]
        cases hred : strGet text f t with
        | none => simp only [hred]
        | some red =>
          simp only [hred]
          rw [ih t]

/-! ## Claim theorems -/

/-- C1: for every string `s` and every ordered, non-overlapping, in-bounds
remark sequence `R` in which every remark has a range on character boundaries
of `s`, `join_chunks (split_chunks s R)` returns exactly `(s, R)`: the same
string and a remark list with identical ranges, rule ids and kinds. -/
theorem split_join_round_trip (s : List Char) (R : List Remark)
    (h : wellFormed s R 0 = true) :
    join_chunks (split_chunks s R) = (s, R) :=
  join_split_loop s R 0 s (dropBytes_zero s) h

/-- Witness for C1 at a concrete input. -/
theorem split_join_round_trip_witness :
    wellFormed "ab".data [Remark.with_range RemarkType.Masked "r" (0, 1)] 0 = true ∧
    join_chunks (split_chunks "ab".data
        [Remark.with_range RemarkType.Masked "r" (0, 1)]) =
      ("ab".data, [Remark.with_range RemarkType.Masked "r" (0, 1)]) :=
  ⟨by decide, split_join_round_trip _ _ (by decide)⟩

/-- C2 counterexample: with text `"ab"` and a single out-of-bounds remark
`(5, 7)`, the claim says `split_chunks` returns only the chunks produced
before the failure — here none — and that the unprocessed remainder is not
included; the code instead still runs the trailing-remainder step after the
`break` and returns `[Text "ab"]`. -/
theorem split_truncation_counterexample :
    split_chunks "ab".data [Remark.with_range RemarkType.Masked "r" (5, 7)] =
      [Chunk.Text "ab".data] ∧
    split_chunks "ab".data [Remark.with_range RemarkType.Masked "r" (5, 7)] ≠ [] := by
  decide

/-- C2 (amended): when a requested slice for a remark is invalid (the gap
slice `text[pos..f]` with `f > pos`, or the redaction slice `text[f..t]`),
`split_chunks` stops processing that remark and all later remarks and raises
no error; the chunks produced before the failure are kept, and the
trailing-remainder step still runs from the cursor position before the failed
remark, so a final `Text` chunk for `text[pos..]` is appended whenever
`pos < text.len()`. -/
theorem split_truncation_policy (s : List Char) (r : Remark) (rest : List Remark)
    (pos f t : Nat) (hr : r.range = some (f, t))
    (hfail : (f > pos ∧ strGet s pos f = none) ∨ strGet s f t = none) :
    split_loop s (r :: rest) pos =
      (if f > pos then ((strGet s pos f).map (fun g => [Chunk.Text g])).getD []
       else []) ++ split_tail s pos := by
  obtain ⟨rty, rrid, rrange⟩ := r
  have hr' : rrange = some (f, t) := hr
  subst hr'
  simp only [split_loop]
  by_cases hfp : f > pos
  · rw [if_pos hfp, if_pos hfp]
    cases hgap : strGet s pos f with
    | none => simp [hgap]
    | some gap =>
      have hred : strGet s f t = none := by
        rcases hfail with ⟨-, h⟩ | h
        · rw [hgap] at h; cases h
        · exact h
      simp [hgap, hred]
  · rw [if_neg hfp, if_neg hfp]
    have hred : strGet s f t = none := by
      rcases hfail with ⟨h, -⟩ | h
      · exact absurd h hfp
      · exact h
    simp [hred]

/-- Witness for C2 (amended) at a concrete input. -/
theorem split_truncation_policy_witness :
    ((Remark.with_range RemarkType.Masked "r" (5, 7)).range = some (5, 7) ∧
      ((5 > 0 ∧ strGet "ab".data 0 5 = none) ∨ strGet "ab".data 5 7 = none)) ∧
    split_loop "ab".data [Remark.with_range RemarkType.Masked "r" (5, 7)] 0 =
      (if 5 > 0 then ((strGet "ab".data 0 5).map (fun g => [Chunk.Text g])).getD []
       else []) ++ split_tail "ab".data 0 :=
  ⟨⟨rfl, by decide⟩,
   split_truncation_policy "ab".data _ [] 0 5 7 rfl (by decide)⟩

/-- C3 counterexample: for the overlapping remark sequence
`[(0, 2), (0, 1)]` over `"ab"` the concatenation of the chunk texts is
`"abab"`, not the input string. -/
theorem split_concat_counterexample :
    flattenTexts (split_chunks "ab".data
      [Remark.with_range RemarkType.Masked "r1" (0, 2),
       Remark.with_range RemarkType.Masked "r2" (0, 1)]) ≠ "ab".data := by
  decide

/-- C3 (amended): for every string `s` and every ordered, non-overlapping,
in-bounds remark sequence on character boundaries, concatenating the text of
each chunk of `split_chunks s R` in order reproduces `s` exactly, and the
chunks are pairwise adjacent with no gaps or overlaps. -/
theorem split_concat_identity (s : List Char) (R : List Remark)
    (h : wellFormed s R 0 = true) :
    flattenTexts (split_chunks s R) = s ∧
      adjacentFrom s (split_chunks s R) 0 = true := by
  have hrt := join_split_loop s R 0 s (dropBytes_zero s) h
  rw [join_loop_eq] at hrt
  have h1 : flattenTexts (split_loop s R 0) = s := congrArg Prod.fst hrt
  refine ⟨h1, adjacent_of_drop s _ 0 ?_⟩
  show dropBytes s 0 = some (flattenTexts (split_loop s R 0))
  rw [h1]
  exact dropBytes_zero s

/-- Witness for C3 (amended) at a concrete input. -/
theorem split_concat_identity_witness :
    wellFormed "ab".data [Remark.with_range RemarkType.Substituted "q" (1, 2)] 0 = true ∧
    (flattenTexts (split_chunks "ab".data
        [Remark.with_range RemarkType.Substituted "q" (1, 2)]) = "ab".data ∧
      adjacentFrom "ab".data
        (split_chunks "ab".data
          [Remark.with_range RemarkType.Substituted "q" (1, 2)]) 0 = true) :=
  ⟨by decide, split_concat_identity _ _ (by decide)⟩

/-- C4: `join_chunks` returns the in-order concatenation of the chunk texts,
and its remark list is exactly the one described by the spec — one remark per
`Redaction` chunk whose range is the pair of byte cursor positions around that
chunk in the output string (recomputed, since chunks carry no range), with the
chunk's rule id and kind, `Text` chunks emitting none — in ascending order by
range. -/
theorem join_chunks_contract (cs : List Chunk) :
    join_chunks cs = (flattenTexts cs, join_remarks_spec cs 0) ∧
    (join_chunks cs).2.length = (cs.filter (fun c => !c.isText)).length ∧
    List.Chain' (fun x y => remarkLE x y = true) (join_chunks cs).2 := by
  have h := join_loop_eq cs 0
  refine ⟨h, ?_, ?_⟩
  · show (join_loop cs 0).2.length = _
    rw [h]
    exact join_remarks_spec_length cs 0
  · show List.Chain' _ (join_loop cs 0).2
    rw [h]
    exact join_remarks_spec_chain cs 0

/-- C5: parsing the JSON document `\x7b\x7d` into an annotated `Exception`
(whose only required field is `type`) produces a root-level result whose own
`Meta` has no errors, while the required `ty` field's own `Meta` carries a
"value required" error. -/
theorem exception_error_scoping :
    (exceptionFromValue (JsonValue.obj [])).meta.has_errors = false ∧
    ((exceptionFromValue (JsonValue.obj [])).value.map
        (fun e => e.ty.meta.errors)) = some ["value required"] ∧
    exceptionFromValue (JsonValue.obj []) =
      Annotated.new
        { ty := Annotated.from_error "value required" none
          value := Annotated.empty
          module := Annotated.empty
          stacktrace := Annotated.empty
          raw_stacktrace := Annotated.empty
          thread_id := Annotated.empty
          mechanism := Annotated.empty
          other := [] } :=
  ⟨rfl, rfl, rfl⟩

/-- C6: the literal pretty-printed `User` JSON with all known fields plus the
unknown key `"other"` parses into the typed record with the unknown key
captured verbatim in the catch-all `other` mapping, and re-serializing with
`to_json_pretty` reproduces the byte-identical input text (schema key order,
2-space indentation). -/
theorem user_wire_round_trip :
    renderValue userJsonValue 0 = userJsonText ∧
    userFromValue userJsonValue = Annotated.new expectedUser ∧
    expectedUser.other = [("other", Annotated.new (JsonValue.str "value"))] ∧
    user_to_json_pretty (userFromValue userJsonValue) = userJsonText :=
  ⟨rfl, rfl, rfl, rfl⟩

/-- C7: a remark whose range is absent contributes zero chunks and is
silently excluded — the output of `split_chunks` equals the output on the
same remark list with the rangeless remarks removed. -/
theorem split_skips_rangeless (text : List Char) (R : List Remark) :
    split_chunks text R =
      split_chunks text (R.filter (fun r => r.range.isSome)) :=
  split_loop_filter text R 0

/-- C8: `split_chunks` and `join_chunks` are total functions over all inputs
(they are plain functions of the model, with every fallible slice handled
internally); malformed ranges degrade to partial output made of genuine
slices of the input — every chunk's text is some valid slice of the text —
and `join_chunks` always returns the concatenation with the recomputed
remarks. -/
theorem chunks_totality :
    (∀ (text : List Char) (R : List Remark) (c : Chunk),
        c ∈ split_chunks text R → ∃ a b, strGet text a b = some c.as_str) ∧
    (∀ cs : List Chunk, join_chunks cs = (flattenTexts cs, join_remarks_spec cs 0)) :=
  ⟨fun text R c h => split_loop_mem_slice text R 0 c h, fun cs => join_loop_eq cs 0⟩

/-- Witness for C8 at a concrete input. -/
theorem chunks_totality_witness :
    (Chunk.Text "ab".data ∈ split_chunks "ab".data
      [Remark.with_range RemarkType.Masked "r" (5, 7)]) ∧
    (∃ a b, strGet "ab".data a b = some (Chunk.Text "ab".data).as_str) :=
  ⟨by decide,
   chunks_totality.1 "ab".data [Remark.with_range RemarkType.Masked "r" (5, 7)]
     (Chunk.Text "ab".data) (by decide)⟩

/-- C9: splitting the literal email text with the single masked remark
`(33, 47)` yields exactly the three expected chunks, and joining those chunks
returns the original string together with a remark list equal to the single
input remark. -/
theorem chunk_split_literal_scenario :
    split_chunks emailText.data [emailRemark] = emailChunks ∧
    join_chunks emailChunks = (emailText.data, [emailRemark]) := by
  constructor
  · decide
  · decide

/-- C10: every `Text` chunk in the output of `split_chunks` is non-empty;
only `Redaction` chunks may be empty, and when no remark has an empty range
(`from = to`) no chunk of the output is empty. -/
theorem split_empty_chunk_policy (text : List Char) (R : List Remark) :
    (∀ c ∈ split_chunks text R, c.isText = true → c.is_empty = false) ∧
    (∀ c ∈ split_chunks text R, c.is_empty = true →
        ∃ rid ty, c = Chunk.Redaction [] rid ty) ∧
    ((∀ r ∈ R, ∀ f t, r.range = some (f, t) → f ≠ t) →
        ∀ c ∈ split_chunks text R, c.is_empty = false) := by
  refine ⟨fun c hc ht => split_loop_text_nonempty text R 0 c hc ht, ?_,
    fun hnr c hc => split_loop_nonempty_of_no_empty_range text R 0 c hnr hc⟩
  intro c hc he
  cases c with
  | Text t =>
    have hne := split_loop_text_nonempty text R 0 _ hc rfl
    rw [he] at hne
    cases hne
  | Redaction t rid ty =>
    refine ⟨rid, ty, ?_⟩
    simp only [Chunk.is_empty, Chunk.len, Chunk.as_str, beq_iff_eq] at he
    rw [byteLen_eq_zero he]

/-- Witness for C10 at a concrete input. -/
theorem split_empty_chunk_policy_witness :
    (Chunk.Text "ab".data ∈ split_chunks "ab".data []) ∧
    (Chunk.Text "ab".data).isText = true ∧
    (Chunk.Text "ab".data).is_empty = false :=
  ⟨by decide, rfl,
   (split_empty_chunk_policy "ab".data []).1 (Chunk.Text "ab".data)
     (by decide) rfl⟩
